import Mathlib

/-!
# Wiegand frame capture and field decoding

A shallow embedding of `src/project/wiegand3.c` (the bit-capture engine:
`data0Pulse`, `data1Pulse`, `wiegandReset`, `wiegandGetPendingBitCount`,
`wiegandReadData`) and of the decoding prefix of `callback` in
`src/test_wiegand.c`.

Conventions of the embedding:

* the three file-level statics `__wiegandData`, `__wiegandBitCount` and
  `__wiegandBitTime` form one record, `FrameBuffer`, passed explicitly;
* every `clock_gettime(CLOCK_MONOTONIC, ..)` becomes a parameter `now`;
* `unsigned char` is a `Nat` truncated with `% 256` at each store,
  `unsigned long` and `uint32_t` are `Nat` reduced `% 2 ^ 32`, `int` is an
  `Int` obtained through `toInt` (32-bit two's complement), as on the 32-bit
  Raspberry Pi the program is written for;
* `time_t` and `long` differences of two clock readings are exact `Int`
  differences: two readings of the monotonic clock are non-negative, so
  their difference cannot overflow;
* `memcpy` out of the 32-byte array yields `some b` for a byte of the array
  and `none` for a position past its end.
-/

namespace Wiegand

/-! ## Constants and data model -/

/-- Capacity in bytes, `#define WIEGANDMAXDATA 32`. -/
abbrev WIEGANDMAXDATA : Nat := 32

/-- Idle threshold, `#define WIEGANDTIMEOUT 4000000`. -/
abbrev WIEGANDTIMEOUT : Int := 4000000

/-- Width of `unsigned long`, `int`, `uint32_t` and `size_t` on the target. -/
abbrev WORD : Nat := 2 ^ 32

/-- The C `struct timespec`. -/
structure Timespec where
  tv_sec : Int
  tv_nsec : Int
  deriving DecidableEq, Repr

/-- The statics of `wiegand3.c`: `__wiegandData[WIEGANDMAXDATA]`,
`__wiegandBitCount`, `__wiegandBitTime`. -/
structure FrameBuffer where
  __wiegandData : Fin WIEGANDMAXDATA → Nat
  __wiegandBitCount : Nat
  __wiegandBitTime : Timespec

/-- Conversion of an unsigned value to `int` (32-bit two's complement). -/
def toInt (n : Nat) : Int :=
  if n % WORD < 2 ^ 31 then ((n % WORD : Nat) : Int) else ((n % WORD : Nat) : Int) - 2 ^ 32

/-- Conversion of an `int` to `size_t`. -/
def toSize (i : Int) : Nat := (i % 2 ^ 32).toNat

/-! ## Edge handlers -/

/-- Source `void data0Pulse(void)`; `now` is the reading of the monotonic clock. -/
def data0Pulse (now : Timespec) (s : FrameBuffer) : FrameBuffer :=
  if h : s.__wiegandBitCount / 8 < WIEGANDMAXDATA then
    let i : Fin WIEGANDMAXDATA := ⟨s.__wiegandBitCount / 8, h⟩
    let d1 := Function.update s.__wiegandData i ((s.__wiegandData i <<< 1) % 256)
    { __wiegandData := d1
      __wiegandBitCount := (s.__wiegandBitCount + 1) % WORD
      __wiegandBitTime := now }
  else
    { s with __wiegandBitTime := now }

/-- Source `void data1Pulse(void)`; `now` is the reading of the monotonic clock. -/
def data1Pulse (now : Timespec) (s : FrameBuffer) : FrameBuffer :=
  if h : s.__wiegandBitCount / 8 < WIEGANDMAXDATA then
    let i : Fin WIEGANDMAXDATA := ⟨s.__wiegandBitCount / 8, h⟩
    let d1 := Function.update s.__wiegandData i ((s.__wiegandData i <<< 1) % 256)
    let d2 := Function.update d1 i (d1 i ||| 1)
    { __wiegandData := d2
      __wiegandBitCount := (s.__wiegandBitCount + 1) % WORD
      __wiegandBitTime := now }
  else
    { s with __wiegandBitTime := now }

/-- One falling edge: `data1Pulse` for bit 1, `data0Pulse` for bit 0, as
registered by `wiegandInit` on the two lines. -/
def pulse (e : Bool × Timespec) (s : FrameBuffer) : FrameBuffer :=
  if e.1 then data1Pulse e.2 s else data0Pulse e.2 s

/-- A sequence of edges, in arrival order. -/
def pulses (s : FrameBuffer) (es : List (Bool × Timespec)) : FrameBuffer :=
  es.foldl (fun acc e => pulse e acc) s

/-- Index of `__wiegandData` that the next edge handler stores to: the
`__wiegandBitCount / 8` of both handlers, under their guard. -/
def writeIndex (s : FrameBuffer) : Option Nat :=
  if s.__wiegandBitCount / 8 < WIEGANDMAXDATA then some (s.__wiegandBitCount / 8) else none

/-! ## Reader -/

/-- Source `void wiegandReset()`. -/
def wiegandReset (s : FrameBuffer) : FrameBuffer :=
  { s with __wiegandData := fun _ => 0, __wiegandBitCount := 0 }

/-- Source `int wiegandGetPendingBitCount()`; `now` is the clock reading. -/
def wiegandGetPendingBitCount (now : Timespec) (s : FrameBuffer) : Int :=
  let delta : Timespec :=
    { tv_sec := now.tv_sec - s.__wiegandBitTime.tv_sec
      tv_nsec := now.tv_nsec - s.__wiegandBitTime.tv_nsec }
  if delta.tv_sec > 1 ∨ delta.tv_nsec > WIEGANDTIMEOUT then
    toInt s.__wiegandBitCount
  else
    0

/-- Source call `memcpy(data, __wiegandData, n)`: the `n` bytes stored to the caller's
buffer; a position past the end of the array reads `none`. -/
def memcpy (src : Fin WIEGANDMAXDATA → Nat) (n : Nat) : List (Option Nat) :=
  (List.range n).map (fun i => if h : i < WIEGANDMAXDATA then some (src ⟨i, h⟩) else none)

/-- What one call of `wiegandReadData` does: the returned `int`, the bytes
stored to the caller's buffer, and the statics afterwards. -/
structure ReadResult where
  ret : Int
  copied : List (Option Nat)
  state : FrameBuffer

/-- Source `int wiegandReadData(void* data, int dataMaxLen)`. -/
def wiegandReadData (now : Timespec) (dataMaxLen : Int) (s : FrameBuffer) : ReadResult :=
  if wiegandGetPendingBitCount now s > 0 then
    let bitCount : Int := toInt s.__wiegandBitCount
    let byteCount : Int := toInt ((s.__wiegandBitCount / 8 + 1) % WORD)
    let n : Int := if byteCount > dataMaxLen then dataMaxLen else byteCount
    { ret := bitCount
      copied := memcpy s.__wiegandData (toSize n)
      state := wiegandReset s }
  else
    { ret := 0, copied := [], state := s }

/-! ## Field decoding (`callback` in `test_wiegand.c`) -/

/-- The three numbers `callback` computes before its file and serial
output: `facnum`, `cardnum` and the combined `value`. -/
structure Decoded where
  facnum : Nat
  cardnum : Nat
  value : Nat
  deriving DecidableEq, Repr

/-- Lines 37-51 of `callback(int bits, uint32_t value)`. The argument is
converted to `uint32_t` on entry. -/
def callback (bits : Int) (value : Nat) : Decoded :=
  let value := value % WORD
  let facnum : Nat :=
    if bits = 34 then (value >>> 17) &&& 65535
    else if bits = 26 then (value >>> 17) &&& 255
    else 0
  let cardnum : Nat := (value >>> 1) &&& 65535
  { facnum := facnum
    cardnum := cardnum
    value := ((facnum * 100000) % WORD + cardnum) % WORD }

/-! ## Specification-side notions -/

/-- Elapsed nanoseconds between two normalised clock readings. -/
def elapsedNs (last now : Timespec) : Int :=
  (now.tv_sec - last.tv_sec) * 1000000000 + (now.tv_nsec - last.tv_nsec)

/-- A normalised `timespec`: `0 <= tv_nsec < 10^9`. -/
@[reducible] def Timespec.normalised (t : Timespec) : Prop :=
  0 ≤ t.tv_nsec ∧ t.tv_nsec < 1000000000

/-- Value of a bit string read with the earliest bit most significant. -/
def bitsValue (bs : List Bool) : Nat :=
  bs.foldl (fun acc b => 2 * acc + (if b then 1 else 0)) 0

/-- Bit of an edge as a number. -/
def bitNat (b : Bool) : Nat := if b then 1 else 0

/-- Byte `k` of a packed bit string: bits `8k .. 8k+7`, earliest bit most
significant (fewer bits when the string ends inside the byte). -/
def byteOf (bs : List Bool) (k : Nat) : Nat :=
  bitsValue ((bs.drop (8 * k)).take 8)

/-- A frame buffer holding `n` bits whose last edge came at `last`. -/
def frameAt (n : Nat) (last : Timespec) : FrameBuffer :=
  { __wiegandData := fun _ => 0, __wiegandBitCount := n, __wiegandBitTime := last }

/-- The frame of 256 zero bits: 256 `data0Pulse` edges after a reset, the
last of them at time 0. -/
def fullFrame : FrameBuffer :=
  pulses (wiegandReset (frameAt 0 ⟨0, 0⟩)) (List.replicate 256 (false, ⟨0, 0⟩))

/-! ## Supporting lemmas -/

theorem data0Pulse_time (now : Timespec) (s : FrameBuffer) :
    (data0Pulse now s).__wiegandBitTime = now := by
  unfold data0Pulse
  by_cases h : s.__wiegandBitCount / 8 < WIEGANDMAXDATA
  · rw [dif_pos h]
  · rw [dif_neg h]

theorem data1Pulse_time (now : Timespec) (s : FrameBuffer) :
    (data1Pulse now s).__wiegandBitTime = now := by
  unfold data1Pulse
  by_cases h : s.__wiegandBitCount / 8 < WIEGANDMAXDATA
  · rw [dif_pos h]
  · rw [dif_neg h]

theorem pulse_time (b : Bool) (now : Timespec) (s : FrameBuffer) :
    (pulse (b, now) s).__wiegandBitTime = now := by
  cases b
  · exact data0Pulse_time now s
  · exact data1Pulse_time now s

theorem bitsValue_append (l : List Bool) (b : Bool) :
    bitsValue (l ++ [b]) = 2 * bitsValue l + bitNat b := by
  simp [bitsValue, bitNat, List.foldl_append]

theorem bitsValue_lt (l : List Bool) : bitsValue l < 2 ^ l.length := by
  induction l using List.reverseRecOn with
  | nil => simp [bitsValue]
  | append_singleton l b ih =>
    rw [bitsValue_append, List.length_append, List.length_singleton, pow_succ]
    have : bitNat b ≤ 1 := by cases b <;> simp [bitNat]
    omega

theorem byteOf_append_same (l : List Bool) (b : Bool) :
    byteOf (l ++ [b]) (l.length / 8) = 2 * byteOf l (l.length / 8) + bitNat b ∧
      byteOf l (l.length / 8) < 128 := by
  have h1 : 8 * (l.length / 8) ≤ l.length := Nat.mul_div_le _ _
  have hlen : (l.drop (8 * (l.length / 8))).length < 8 := by
    rw [List.length_drop]; omega
  unfold byteOf
  rw [List.drop_append_of_le_length h1]
  rw [List.take_of_length_le (by rw [List.length_append, List.length_singleton]; omega)]
  rw [List.take_of_length_le (Nat.le_of_lt hlen)]
  refine ⟨bitsValue_append _ _, ?_⟩
  have := bitsValue_lt (l.drop (8 * (l.length / 8)))
  have h2 : 2 ^ (l.drop (8 * (l.length / 8))).length ≤ 2 ^ 7 :=
    Nat.pow_le_pow_right (by norm_num) (by omega)
  omega

theorem byteOf_append_other (l : List Bool) (b : Bool) (k : Nat) (hk : k ≠ l.length / 8) :
    byteOf (l ++ [b]) k = byteOf l k := by
  unfold byteOf
  rcases Nat.lt_or_gt_of_ne hk with h | h
  · have h1 : 8 * k + 8 ≤ l.length := by omega
    rw [List.drop_append_of_le_length (by omega)]
    rw [List.take_append_of_le_length (by rw [List.length_drop]; omega)]
  · have h1 : l.length + 1 ≤ 8 * k := by omega
    rw [List.drop_eq_nil_of_le (by rw [List.length_append, List.length_singleton]; exact h1)]
    rw [List.drop_eq_nil_of_le (by omega)]

theorem shl_or_bit (x : Nat) (b : Bool) :
    (if b then ((x <<< 1) % 256) ||| 1 else (x <<< 1) % 256) = (2 * x) % 256 + bitNat b := by
  rw [Nat.shiftLeft_eq, pow_one, Nat.mul_comm]
  cases b
  · simp [bitNat]
  · have h : (2 * x) % 256 = 2 ^ 1 * (x % 128) := by omega
    simp only [bitNat, if_true]
    rw [h, ← Nat.mul_add_lt_is_or (by norm_num)]

/-- Below capacity an edge shifts its bit into byte `bitCount / 8` and
counts it. -/
theorem pulse_below (b : Bool) (t : Timespec) (s : FrameBuffer)
    (h : s.__wiegandBitCount / 8 < WIEGANDMAXDATA) :
    (pulse (b, t) s).__wiegandBitCount = s.__wiegandBitCount + 1 ∧
    (pulse (b, t) s).__wiegandData =
      Function.update s.__wiegandData ⟨s.__wiegandBitCount / 8, h⟩
        ((2 * s.__wiegandData ⟨s.__wiegandBitCount / 8, h⟩) % 256 + bitNat b) := by
  have hw : (s.__wiegandBitCount + 1) % WORD = s.__wiegandBitCount + 1 := by
    apply Nat.mod_eq_of_lt
    have : s.__wiegandBitCount < 256 := by
      have := h
      simp only [WIEGANDMAXDATA] at this
      omega
    simp only [WORD]
    omega
  cases b
  · simp only [pulse, data0Pulse, dif_pos h, hw, Bool.false_eq_true, if_false, true_and]
    rw [← shl_or_bit _ false]
    simp
  · simp only [pulse, data1Pulse, dif_pos h, hw, if_true, true_and]
    rw [← shl_or_bit _ true]
    simp

/-- At capacity an edge leaves the bytes and the bit count as they are. -/
theorem pulse_full (b : Bool) (t : Timespec) (s : FrameBuffer)
    (h : ¬ s.__wiegandBitCount / 8 < WIEGANDMAXDATA) :
    (pulse (b, t) s).__wiegandBitCount = s.__wiegandBitCount ∧
    (pulse (b, t) s).__wiegandData = s.__wiegandData := by
  cases b
  · simp [pulse, data0Pulse, dif_neg h]
  · simp [pulse, data1Pulse, dif_neg h]

theorem pulses_append (s : FrameBuffer) (es : List (Bool × Timespec)) (e : Bool × Timespec) :
    pulses s (es ++ [e]) = pulse e (pulses s es) := by
  simp [pulses, List.foldl_append]

/-- Invariant of accumulation from the reset state: the count is capped at
256 and byte `k` packs bits `8k .. 8k+7` of the first 256 bits. -/
theorem pulses_reset_inv (s0 : FrameBuffer) (es : List (Bool × Timespec)) :
    (pulses (wiegandReset s0) es).__wiegandBitCount = min es.length 256 ∧
    ∀ k : Fin WIEGANDMAXDATA,
      (pulses (wiegandReset s0) es).__wiegandData k = byteOf ((es.map Prod.fst).take 256) k := by
  induction es using List.reverseRecOn with
  | nil =>
    refine ⟨by simp [pulses, wiegandReset], fun k => ?_⟩
    simp [pulses, wiegandReset, byteOf, bitsValue]
  | append_singleton es e ih =>
    obtain ⟨b, t⟩ := e
    obtain ⟨ihc, ihd⟩ := ih
    rw [pulses_append, List.length_append, List.length_singleton, List.map_append,
      List.map_singleton]
    by_cases hlt : es.length < 256
    · have hmin : min es.length 256 = es.length := Nat.min_eq_left (Nat.le_of_lt hlt)
      rw [hmin] at ihc
      have hg : (pulses (wiegandReset s0) es).__wiegandBitCount / 8 < WIEGANDMAXDATA := by
        rw [ihc]; simp only [WIEGANDMAXDATA]; omega
      obtain ⟨hc, hd⟩ := pulse_below b t _ hg
      have htake : (List.map Prod.fst es ++ [b]).take 256 = List.map Prod.fst es ++ [b] :=
        List.take_of_length_le (by simp; omega)
      have htake0 : (List.map Prod.fst es).take 256 = List.map Prod.fst es :=
        List.take_of_length_le (by simp; omega)
      rw [htake0] at ihd
      refine ⟨by rw [hc, ihc]; omega, fun k => ?_⟩
      rw [hd, htake]
      have hlen : (List.map Prod.fst es).length = es.length := List.length_map _ _
      by_cases hk : k.val = es.length / 8
      · have hkk : k = ⟨(pulses (wiegandReset s0) es).__wiegandBitCount / 8, hg⟩ := by
          apply Fin.ext; simp [hk, ihc]
        rw [hkk, Function.update_same, ← hkk, ihd k, hk]
        have := byteOf_append_same (List.map Prod.fst es) b
        rw [hlen] at this
        rw [this.1, Nat.mod_eq_of_lt (by omega)]
      · have hkk : k ≠ ⟨(pulses (wiegandReset s0) es).__wiegandBitCount / 8, hg⟩ := by
          intro h; apply hk; rw [h]; simp [ihc]
        rw [Function.update_noteq hkk, ihd k]
        exact (byteOf_append_other _ b k (by rw [hlen]; exact hk)).symm
    · have hge : 256 ≤ es.length := Nat.le_of_not_lt hlt
      have hmin : min es.length 256 = 256 := Nat.min_eq_right hge
      rw [hmin] at ihc
      have hg : ¬ (pulses (wiegandReset s0) es).__wiegandBitCount / 8 < WIEGANDMAXDATA := by
        rw [ihc]; simp only [WIEGANDMAXDATA]; omega
      obtain ⟨hc, hd⟩ := pulse_full b t _ hg
      have htake : (List.map Prod.fst es ++ [b]).take 256 = (List.map Prod.fst es).take 256 :=
        List.take_append_of_le_length (by simp; omega)
      refine ⟨by rw [hc, ihc]; omega, fun k => ?_⟩
      rw [hd, htake]
      exact ihd k

theorem byteOf_take (bs : List Bool) (n k : Nat) (h : 8 * k + 8 ≤ n) :
    byteOf (bs.take n) k = bitsValue ((bs.drop (8 * k)).take 8) := by
  unfold byteOf
  rw [List.drop_take, List.take_take, Nat.min_eq_left (by omega)]

theorem byteOf_beyond (bs : List Bool) (k : Nat) (h : bs.length ≤ 8 * k) :
    byteOf bs k = 0 := by
  unfold byteOf
  rw [List.drop_eq_nil_of_le h]
  rfl

theorem toInt_small (n : Nat) (h : n < 2 ^ 31) : toInt n = (n : Int) := by
  have h1 : n % WORD = n := Nat.mod_eq_of_lt (by simp only [WORD]; omega)
  unfold toInt
  rw [h1, if_pos h]

theorem callback_cardnum (bits : Int) (value : Nat) :
    (callback bits value).cardnum = ((value % WORD) >>> 1) &&& 65535 := rfl

theorem callback_facnum_le (bits : Int) (value : Nat) :
    (callback bits value).facnum ≤ 32767 := by
  have hv : (value % WORD) >>> 17 ≤ 32767 := by
    rw [Nat.shiftRight_eq_div_pow]
    have : value % WORD < 2 ^ 32 := Nat.mod_lt _ (by norm_num)
    omega
  show (if bits = 34 then ((value % WORD) >>> 17) &&& 65535
    else if bits = 26 then ((value % WORD) >>> 17) &&& 255 else 0) ≤ 32767
  split
  · exact le_trans Nat.and_le_left hv
  · split
    · exact le_trans Nat.and_le_left hv
    · omega

theorem callback_cardnum_le (bits : Int) (value : Nat) :
    (callback bits value).cardnum ≤ 65535 := by
  rw [callback_cardnum]
  exact Nat.and_le_right

theorem callback_value (bits : Int) (value : Nat) :
    (callback bits value).value =
      (callback bits value).facnum * 100000 + (callback bits value).cardnum := by
  have hf := callback_facnum_le bits value
  have hc := callback_cardnum_le bits value
  show (((callback bits value).facnum * 100000) % WORD + (callback bits value).cardnum) % WORD = _
  simp only [WORD]
  omega

theorem memcpy_length (src : Fin WIEGANDMAXDATA → Nat) (n : Nat) :
    (memcpy src n).length = n := by
  simp [memcpy]

theorem memcpy_get (src : Fin WIEGANDMAXDATA → Nat) (n i : Nat) (hi : i < n) :
    (memcpy src n).get? i =
      some (if h : i < WIEGANDMAXDATA then some (src ⟨i, h⟩) else none) := by
  simp [memcpy, List.getElem?_range hi]

/-- What `wiegandReadData` does on a pending frame of at most 256 bits:
it returns the bit count and copies `min (bitCount / 8 + 1) dataMaxLen`
bytes starting at `__wiegandData[0]`. -/
theorem readData_pending (s : FrameBuffer) (now : Timespec) (dataMaxLen : Int)
    (hN : s.__wiegandBitCount ≤ 256)
    (hp : wiegandGetPendingBitCount now s > 0)
    (h0 : 0 ≤ dataMaxLen) (h1 : dataMaxLen < 2 ^ 31) :
    (wiegandReadData now dataMaxLen s).ret = s.__wiegandBitCount ∧
    (wiegandReadData now dataMaxLen s).copied =
      memcpy s.__wiegandData (min (s.__wiegandBitCount / 8 + 1) dataMaxLen.toNat) ∧
    (wiegandReadData now dataMaxLen s).state = wiegandReset s := by
  have hb : toInt s.__wiegandBitCount = (s.__wiegandBitCount : Int) :=
    toInt_small _ (by omega)
  have hw : (s.__wiegandBitCount / 8 + 1) % WORD = s.__wiegandBitCount / 8 + 1 :=
    Nat.mod_eq_of_lt (by simp only [WORD]; omega)
  have hy : toInt (s.__wiegandBitCount / 8 + 1) = ((s.__wiegandBitCount / 8 + 1 : Nat) : Int) :=
    toInt_small _ (by omega)
  unfold wiegandReadData
  rw [if_pos hp]
  dsimp only
  rw [hb, hw, hy]
  refine ⟨rfl, ?_, rfl⟩
  congr 1
  unfold toSize
  by_cases hc : ((s.__wiegandBitCount / 8 + 1 : Nat) : Int) > dataMaxLen
  · rw [if_pos hc]
    have : dataMaxLen % 2 ^ 32 = dataMaxLen := Int.emod_eq_of_lt h0 (by omega)
    rw [this]
    omega
  · rw [if_neg hc]
    have : ((s.__wiegandBitCount / 8 + 1 : Nat) : Int) % 2 ^ 32 =
        ((s.__wiegandBitCount / 8 + 1 : Nat) : Int) :=
      Int.emod_eq_of_lt (by omega) (by omega)
    rw [this]
    omega

/-- The copy stays inside `__wiegandData` when the frame has fewer than 256
bits or the caller asks for at most 32 bytes: every copied byte `i` is
byte `i` of the array. -/
theorem readData_in_bounds (s : FrameBuffer) (now : Timespec) (dataMaxLen : Int)
    (hN : s.__wiegandBitCount ≤ 256)
    (hp : wiegandGetPendingBitCount now s > 0)
    (h0 : 0 ≤ dataMaxLen) (h1 : dataMaxLen < 2 ^ 31)
    (hin : s.__wiegandBitCount < 256 ∨ dataMaxLen ≤ 32) :
    (wiegandReadData now dataMaxLen s).copied.length =
      min (s.__wiegandBitCount / 8 + 1) dataMaxLen.toNat ∧
    ∀ i, i < (wiegandReadData now dataMaxLen s).copied.length →
      ∃ h : i < WIEGANDMAXDATA,
        (wiegandReadData now dataMaxLen s).copied.get? i = some (some (s.__wiegandData ⟨i, h⟩)) := by
  obtain ⟨_, hcopy, _⟩ := readData_pending s now dataMaxLen hN hp h0 h1
  rw [hcopy, memcpy_length]
  refine ⟨rfl, fun i hi => ?_⟩
  have h32 : i < WIEGANDMAXDATA := by
    simp only [WIEGANDMAXDATA]
    omega
  refine ⟨h32, ?_⟩
  rw [memcpy_get _ _ _ hi, dif_pos h32]

theorem pulses_replicate_time (s : FrameBuffer) (n : Nat) (e : Bool × Timespec) :
    (pulses s (List.replicate (n + 1) e)).__wiegandBitTime = e.2 := by
  rw [List.replicate_succ', pulses_append]
  exact pulse_time e.1 e.2 _

/-! ## Theorems -/

/-- C1 (code defect). One second, 1.002 seconds and 5 ms (across a second
boundary) after the last edge the elapsed time exceeds `WIEGANDTIMEOUT`,
yet `wiegandGetPendingBitCount` returns 0 and not the 26 accumulated bits. -/
theorem pending_misses_elapsed_timeout :
    (elapsedNs ⟨0, 0⟩ ⟨1, 0⟩ > WIEGANDTIMEOUT ∧
      wiegandGetPendingBitCount ⟨1, 0⟩ (frameAt 26 ⟨0, 0⟩) = 0) ∧
    (elapsedNs ⟨0, 0⟩ ⟨1, 2000000⟩ > WIEGANDTIMEOUT ∧
      wiegandGetPendingBitCount ⟨1, 2000000⟩ (frameAt 26 ⟨0, 0⟩) = 0) ∧
    (elapsedNs ⟨10, 999000000⟩ ⟨11, 4000000⟩ > WIEGANDTIMEOUT ∧
      wiegandGetPendingBitCount ⟨11, 4000000⟩ (frameAt 26 ⟨10, 999000000⟩) = 0) := by
  decide

/-- C3. After any edge at time `t` (bit kept or dropped), a poll at `t'`
with `t <= t'` and `t' - t <= 4,000,000 ns` returns 0. -/
theorem no_frame_while_receiving (s : FrameBuffer) (b : Bool) (t t' : Timespec)
    (ht : t.normalised) (ht' : t'.normalised)
    (hle : 0 ≤ elapsedNs t t') (hgap : elapsedNs t t' ≤ WIEGANDTIMEOUT) :
    wiegandGetPendingBitCount t' (pulse (b, t) s) = 0 := by
  unfold wiegandGetPendingBitCount
  rw [pulse_time]
  unfold elapsedNs at hle hgap
  unfold Timespec.normalised at ht ht'
  simp only [WIEGANDTIMEOUT] at hgap ⊢
  rw [if_neg]
  omega

/-- Witness of C3: a 26th bit at 10.999 s, polled 3 ms later, across the
boundary of a second. -/
theorem no_frame_while_receiving_witness :
    wiegandGetPendingBitCount ⟨11, 2000000⟩
      (pulse (true, ⟨10, 999000000⟩) (frameAt 25 ⟨3, 0⟩)) = 0 :=
  no_frame_while_receiving (frameAt 25 ⟨3, 0⟩) true ⟨10, 999000000⟩ ⟨11, 2000000⟩
    (by decide) (by decide) (by decide) (by decide)

/-- C5. Starting from the reset state, after edges carrying bits
`b_0 .. b_{n-1}` the bit count is `m = min n 256`; every byte `k < m / 8`
is `b_{8k} .. b_{8k+7}` with the earliest bit most significant; when
`r = m % 8 > 0`, byte `m / 8` is the remaining `r` bits in its `r` low-order
positions; all later bytes are 0; once 256 edges have arrived a further
edge changes neither bytes nor bit count; and after every prefix of the
edges the handler stores, if at all, at index `prefix length / 8 < 32`. -/
theorem accumulation_truncates_at_capacity (s0 : FrameBuffer) (es : List (Bool × Timespec)) :
    let bits := es.map Prod.fst
    let s := pulses (wiegandReset s0) es
    let m := min es.length 256
    s.__wiegandBitCount = m ∧
    (∀ k (hk : k < WIEGANDMAXDATA), k < m / 8 →
      s.__wiegandData ⟨k, hk⟩ = bitsValue ((bits.drop (8 * k)).take 8)) ∧
    (∀ (h : m / 8 < WIEGANDMAXDATA), 0 < m % 8 →
      s.__wiegandData ⟨m / 8, h⟩ = bitsValue ((bits.drop (8 * (m / 8))).take (m % 8)) ∧
      s.__wiegandData ⟨m / 8, h⟩ < 2 ^ (m % 8)) ∧
    (∀ k (hk : k < WIEGANDMAXDATA), m / 8 ≤ k → (k = m / 8 → m % 8 = 0) →
      s.__wiegandData ⟨k, hk⟩ = 0) ∧
    (256 ≤ es.length → ∀ e, (pulse e s).__wiegandData = s.__wiegandData ∧
      (pulse e s).__wiegandBitCount = s.__wiegandBitCount) ∧
    (∀ pre post i, es = pre ++ post →
      writeIndex (pulses (wiegandReset s0) pre) = some i →
        i = pre.length / 8 ∧ i < WIEGANDMAXDATA) := by
  intro bits s m
  obtain ⟨hc, hd⟩ := pulses_reset_inv s0 es
  have hd' : ∀ k (hk : k < WIEGANDMAXDATA),
      s.__wiegandData ⟨k, hk⟩ = byteOf (bits.take 256) k := fun k hk => hd ⟨k, hk⟩
  have hblen : bits.length = es.length := List.length_map _ _
  have hm : m ≤ 256 := Nat.min_le_right _ _
  have hm2 : m ≤ es.length := Nat.min_le_left _ _
  have htl : (bits.take 256).length = m := by
    rw [List.length_take, hblen]; exact Nat.min_comm _ _
  refine ⟨hc, ?_, ?_, ?_, ?_, ?_⟩
  · intro k hk hkm
    rw [hd' k hk]
    exact byteOf_take bits 256 k (by omega)
  · intro h hr
    have hlt : es.length < 256 := by
      by_contra hcon
      have : m = 256 := Nat.min_eq_right (Nat.le_of_not_lt hcon)
      omega
    have hme : m = es.length := Nat.min_eq_left (Nat.le_of_lt hlt)
    have htake : bits.take 256 = bits := List.take_of_length_le (by omega)
    have hdl : (bits.drop (8 * (m / 8))).length = m % 8 := by
      rw [List.length_drop, hblen, ← hme]; omega
    have hval : s.__wiegandData ⟨m / 8, h⟩ =
        bitsValue ((bits.drop (8 * (m / 8))).take (m % 8)) := by
      rw [hd' (m / 8) h, htake]
      unfold byteOf
      rw [List.take_of_length_le (by omega), List.take_of_length_le (by omega)]
    refine ⟨hval, ?_⟩
    rw [hval, List.take_of_length_le (by omega)]
    have := bitsValue_lt (bits.drop (8 * (m / 8)))
    rwa [hdl] at this
  · intro k hk hkm hk0
    rw [hd' k hk]
    apply byteOf_beyond
    rw [htl]
    by_cases hkeq : k = m / 8
    · have := hk0 hkeq
      omega
    · omega
  · intro hge e
    obtain ⟨b, t⟩ := e
    have hg : ¬ s.__wiegandBitCount / 8 < WIEGANDMAXDATA := by
      rw [hc]
      have : m = 256 := Nat.min_eq_right hge
      simp only [WIEGANDMAXDATA]
      omega
    exact ⟨(pulse_full b t s hg).2, (pulse_full b t s hg).1⟩
  · intro pre post i _ hw
    obtain ⟨hpc, _⟩ := pulses_reset_inv s0 pre
    unfold writeIndex at hw
    rw [hpc] at hw
    by_cases hg : min pre.length 256 / 8 < WIEGANDMAXDATA
    · rw [if_pos hg] at hw
      have hi : min pre.length 256 / 8 = i := Option.some.inj hw
      simp only [WIEGANDMAXDATA] at hg ⊢
      have : pre.length < 256 := by
        by_contra hcon
        have : min pre.length 256 = 256 := Nat.min_eq_right (Nat.le_of_not_lt hcon)
        omega
      have : min pre.length 256 = pre.length := Nat.min_eq_left (by omega)
      omega
    · rw [if_neg hg] at hw
      exact absurd hw (by simp)

/-- C2 (code defect). A full frame of 256 bits is pending 5 ms after its
last edge; `wiegandReadData(data, 100)`, the call of `main`, returns 256 and
copies `256 / 8 + 1 = 33` bytes, so byte 32 is read from outside the
32-byte `__wiegandData`. -/
theorem readData_full_frame_overrun :
    fullFrame.__wiegandBitCount = 256 ∧
    wiegandGetPendingBitCount ⟨0, 5000000⟩ fullFrame = 256 ∧
    (wiegandReadData ⟨0, 5000000⟩ 100 fullFrame).ret = 256 ∧
    (wiegandReadData ⟨0, 5000000⟩ 100 fullFrame).copied.length = 33 ∧
    (wiegandReadData ⟨0, 5000000⟩ 100 fullFrame).copied.get? 32 = some none ∧
    WIEGANDMAXDATA = 32 := by
  have hc : fullFrame.__wiegandBitCount = 256 := by
    have := (pulses_reset_inv (frameAt 0 ⟨0, 0⟩) (List.replicate 256 (false, ⟨0, 0⟩))).1
    rw [List.length_replicate] at this
    exact this
  have ht : fullFrame.__wiegandBitTime = ⟨0, 0⟩ :=
    pulses_replicate_time _ 255 (false, ⟨0, 0⟩)
  have hp : wiegandGetPendingBitCount ⟨0, 5000000⟩ fullFrame = 256 := by
    unfold wiegandGetPendingBitCount
    dsimp only
    rw [hc, ht]
    decide
  obtain ⟨hret, hcopy, _⟩ := readData_pending fullFrame ⟨0, 5000000⟩ 100
    (by rw [hc]) (by rw [hp]; decide) (by decide) (by decide)
  refine ⟨hc, hp, ?_, ?_, ?_, rfl⟩
  · rw [hret, hc]; rfl
  · rw [hcopy, memcpy_length, hc]; rfl
  · rw [hcopy, hc, memcpy_get _ _ _ (by decide)]
    rfl

/-- C4. Whenever `wiegandReadData` returns a non-zero bit count it leaves
all 32 bytes zero and the bit count 0; with no edge in between, every later
poll returns 0 and a second `wiegandReadData` returns 0, stores nothing to
the caller and leaves the frame buffer as it is. -/
theorem frame_delivered_once (s : FrameBuffer) (now : Timespec) (dataMaxLen : Int)
    (h : (wiegandReadData now dataMaxLen s).ret ≠ 0) :
    (∀ k, (wiegandReadData now dataMaxLen s).state.__wiegandData k = 0) ∧
    (wiegandReadData now dataMaxLen s).state.__wiegandBitCount = 0 ∧
    (∀ later, wiegandGetPendingBitCount later (wiegandReadData now dataMaxLen s).state = 0) ∧
    (∀ later maxLen,
      (wiegandReadData later maxLen (wiegandReadData now dataMaxLen s).state).ret = 0 ∧
      (wiegandReadData later maxLen (wiegandReadData now dataMaxLen s).state).copied = [] ∧
      (wiegandReadData later maxLen (wiegandReadData now dataMaxLen s).state).state =
        (wiegandReadData now dataMaxLen s).state) := by
  have hp : wiegandGetPendingBitCount now s > 0 := by
    by_contra hcon
    apply h
    unfold wiegandReadData
    rw [if_neg hcon]
  have hst : (wiegandReadData now dataMaxLen s).state = wiegandReset s := by
    unfold wiegandReadData
    rw [if_pos hp]
  have hpoll : ∀ later, wiegandGetPendingBitCount later (wiegandReset s) = 0 := by
    intro later
    have h0 : toInt (wiegandReset s).__wiegandBitCount = 0 := rfl
    unfold wiegandGetPendingBitCount
    dsimp only
    rw [h0, ite_self]
  rw [hst]
  refine ⟨fun k => rfl, rfl, hpoll, fun later maxLen => ?_⟩
  have hn : ¬ wiegandGetPendingBitCount later (wiegandReset s) > 0 := by
    rw [hpoll later]; decide
  unfold wiegandReadData
  rw [if_neg hn]
  exact ⟨rfl, rfl, rfl⟩

/-- Witness of C4: a 26-bit frame read 5 ms after its last edge. -/
theorem frame_delivered_once_witness :
    (wiegandReadData ⟨0, 5000000⟩ 100 (frameAt 26 ⟨0, 0⟩)).ret = 26 ∧
    (∀ later maxLen,
      (wiegandReadData later maxLen
        (wiegandReadData ⟨0, 5000000⟩ 100 (frameAt 26 ⟨0, 0⟩)).state).ret = 0) :=
  ⟨by decide, fun later maxLen =>
    ((frame_delivered_once (frameAt 26 ⟨0, 0⟩) ⟨0, 5000000⟩ 100 (by decide)).2.2.2
      later maxLen).1⟩

/-- C6 (counterexample). The 33-bit value `2^32` has facility field
`(2^32 >> 17) & 0xFFFF = 32768`, but the `uint32_t` parameter of `callback`
cannot carry bit 32 and the decoded facility code is 0. -/
theorem decode34_drops_bit32 :
    (2 ^ 32 : Nat) < 2 ^ 34 ∧
    ((2 ^ 32 : Nat) >>> 17) &&& 0xFFFF = 32768 ∧
    (callback 34 (2 ^ 32)).facnum = 0 ∧
    (callback 34 (2 ^ 32)).facnum ≠ ((2 ^ 32 : Nat) >>> 17) &&& 0xFFFF := by
  decide

/-- C6 (amended). For 34 bits and a raw value of at most 34 bits the card
code is `(raw >> 1) & 0xFFFF` and the facility code is taken from the low
32 bits, `((raw mod 2^32) >> 17) & 0xFFFF`; when the raw value fits the
`uint32_t` parameter the facility code is `(raw >> 17) & 0xFFFF`. -/
theorem decode34_of_uint32 (raw : Nat) (_h : raw < 2 ^ 34) :
    (callback 34 raw).cardnum = (raw >>> 1) &&& 0xFFFF ∧
    (callback 34 raw).facnum = ((raw % 2 ^ 32) >>> 17) &&& 0xFFFF ∧
    (raw < 2 ^ 32 → (callback 34 raw).facnum = (raw >>> 17) &&& 0xFFFF) := by
  have hf : (callback 34 raw).facnum = ((raw % 2 ^ 32) >>> 17) &&& 0xFFFF := rfl
  refine ⟨?_, hf, fun h32 => ?_⟩
  · rw [callback_cardnum]
    have e : (65535 : Nat) = 2 ^ 16 - 1 := by norm_num
    rw [e, Nat.and_pow_two_sub_one_eq_mod, Nat.and_pow_two_sub_one_eq_mod,
      Nat.shiftRight_eq_div_pow, Nat.shiftRight_eq_div_pow]
    simp only [WORD]
    omega
  · rw [hf, Nat.mod_eq_of_lt h32]

/-- Witness of C6 (amended): the raw value `0x12345678`. -/
theorem decode34_of_uint32_witness :
    (callback 34 0x12345678).cardnum = 11068 ∧ (callback 34 0x12345678).facnum = 2330 := by
  have h := decode34_of_uint32 0x12345678 (by decide)
  exact ⟨h.1.trans (by decide), (h.2.2 (by decide)).trans (by decide)⟩

/-- C7. For 26 bits and a raw value of at most 26 bits the facility code is
`(raw >> 17) & 0xFF` and the card code `(raw >> 1) & 0xFFFF`, hence at most
255 and 65535. -/
theorem decode26 (raw : Nat) (h : raw < 2 ^ 26) :
    (callback 26 raw).facnum = (raw >>> 17) &&& 0xFF ∧
    (callback 26 raw).cardnum = (raw >>> 1) &&& 0xFFFF ∧
    (callback 26 raw).facnum ≤ 255 ∧
    (callback 26 raw).cardnum ≤ 65535 := by
  have hw : raw % WORD = raw := Nat.mod_eq_of_lt (by simp only [WORD]; omega)
  have hf : (callback 26 raw).facnum = (raw >>> 17) &&& 0xFF := by
    show ((raw % WORD) >>> 17) &&& 255 = _
    rw [hw]
  have hc : (callback 26 raw).cardnum = (raw >>> 1) &&& 0xFFFF := by
    rw [callback_cardnum, hw]
  refine ⟨hf, hc, ?_, callback_cardnum_le 26 raw⟩
  rw [hf]
  exact Nat.and_le_right

/-- Witness of C7: the 26-bit raw value `0x2345678`. -/
theorem decode26_witness :
    (callback 26 0x2345678).facnum = 26 ∧ (callback 26 0x2345678).cardnum = 11068 := by
  have h := decode26 0x2345678 (by decide)
  exact ⟨h.1.trans (by decide), h.2.1.trans (by decide)⟩

/-- C8 (counterexample). For the unrecognised length 32 and the value
`0x12345678` the card code and the combined value are 11068, not 0. -/
theorem other_length_has_cardnum :
    (32 : Int) ≠ 26 ∧ (32 : Int) ≠ 34 ∧
    (callback 32 0x12345678).cardnum = 11068 ∧
    (callback 32 0x12345678).value = 11068 ∧
    ¬ ((callback 32 0x12345678).cardnum = 0 ∧ (callback 32 0x12345678).value = 0) := by
  decide

/-- C8 (amended). For every bit count other than 26 and 34 the facility
code stays 0, while the card code is `(value >> 1) & 0xFFFF` as for the
recognised lengths and the combined value equals that card code. -/
theorem other_length_decoding (bits : Int) (value : Nat) (h26 : bits ≠ 26) (h34 : bits ≠ 34) :
    (callback bits value).facnum = 0 ∧
    (callback bits value).cardnum = ((value % WORD) >>> 1) &&& 0xFFFF ∧
    (callback bits value).value = (callback bits value).cardnum := by
  have hf : (callback bits value).facnum = 0 := by
    show (if bits = 34 then ((value % WORD) >>> 17) &&& 65535
      else if bits = 26 then ((value % WORD) >>> 17) &&& 255 else 0) = 0
    rw [if_neg h34, if_neg h26]
  refine ⟨hf, rfl, ?_⟩
  rw [callback_value, hf]
  omega

/-- Witness of C8 (amended): bit count 32, value `0x12345678`. -/
theorem other_length_decoding_witness :
    (callback 32 0x12345678).facnum = 0 ∧ (callback 32 0x12345678).value = 11068 := by
  have h := other_length_decoding 32 0x12345678 (by decide) (by decide)
  exact ⟨h.1, h.2.2.trans (h.2.1.trans (by decide))⟩

/-- C9. For bit count 26 or 34 and 32-bit inputs, the combined value
computed in `uint32_t` arithmetic is exactly `facnum * 100000 + cardnum`
(no wraparound), and equal combined values force equal facility codes and
equal card codes. -/
theorem combined_value_injective (bits : Int) (v1 v2 : Nat)
    (_hb : bits = 26 ∨ bits = 34) (_h1 : v1 < 2 ^ 32) (_h2 : v2 < 2 ^ 32) :
    (callback bits v1).value =
      (callback bits v1).facnum * 100000 + (callback bits v1).cardnum ∧
    (callback bits v1).facnum * 100000 + (callback bits v1).cardnum < 2 ^ 32 ∧
    ((callback bits v1).value = (callback bits v2).value →
      (callback bits v1).facnum = (callback bits v2).facnum ∧
      (callback bits v1).cardnum = (callback bits v2).cardnum) := by
  have hf1 := callback_facnum_le bits v1
  have hc1 := callback_cardnum_le bits v1
  have hf2 := callback_facnum_le bits v2
  have hc2 := callback_cardnum_le bits v2
  refine ⟨callback_value bits v1, by omega, fun h => ?_⟩
  rw [callback_value, callback_value] at h
  omega

/-- Witness of C9: two 34-bit reads with the same low 32 bits pattern. -/
theorem combined_value_injective_witness :
    (callback 34 0x12345678).value = 233011068 :=
  (combined_value_injective 34 0x12345678 0x12345678 (by decide) (by decide) (by decide)).1.trans
    (by decide)

end Wiegand
